import Mathlib

/-
Shallow embedding of the Go package `collection` from golang-fp-utility
(src/collection/collection.go), together with proofs of the specified
properties of its operations.

Modelling conventions:
  * A Go slice `[]T` is modelled as `GoSlice T := Option (List T)`:
    `none` is the nil slice, `some l` a non-nil slice with elements `l`.
    Go's `range` treats a nil slice exactly like an empty one, which is
    captured by `GoSlice.elems`.
  * A Go map `map[K]V` is modelled as `GoMap K V := Option (List (K × V))`,
    an association list of its entries (`none` = nil map); Go's map
    iteration order is unspecified, the model fixes the entry-list order.
  * A Go `error` value is modelled as `Option String` (`none` = nil error,
    `some msg` = an error whose `Error()` message is `msg`).
  * `errors.Wrap(err, msg)` from github.com/pkg/errors produces an error
    whose message is `msg ++ ": " ++ err.Error()`; this is inlined where
    the source uses it.
  * Go's `constraints.Ordered` becomes `[LinearOrder _]`, `comparable`
    becomes `[DecidableEq _]`, and a type's zero value (`var x T`) is
    modelled by `default` from `[Inhabited _]`.
  * Side effects of callbacks (in `ForEachWithError`) are modelled by
    explicit state passing: the Go closure `func(T) error` mutating its
    captured environment becomes `σ → T → σ × Option String`.
-/

namespace Collection

/-- Go slice: `none` models a nil slice, `some l` a non-nil slice holding `l`. -/
abbrev GoSlice (α : Type) : Type := Option (List α)

/-- Elements seen by Go's `range`: a nil slice ranges like an empty one. -/
def GoSlice.elems {α : Type} : GoSlice α → List α
  | none => []
  | some l => l

/-- Go map modelled as an association list of entries; `none` is the nil map. -/
abbrev GoMap (κ ν : Type) : Type := Option (List (κ × ν))

/-- Entries seen by Go's `range` over a map; a nil map ranges like an empty one. -/
def GoMap.entries {κ ν : Type} : GoMap κ ν → List (κ × ν)
  | none => []
  | some l => l

/-- Loop body of `Map`: `result := []T2{}; for _, item := range source { result = append(result, transform(item)) }`. -/
def mapGo {α β : Type} (transform : α → β) : List α → List β
  | [] => []
  | item :: rest => transform item :: mapGo transform rest

/-- Go `Map`: applies a transformation to each item, returning a fresh non-nil slice. -/
def Map {α β : Type} (source : GoSlice α) (transform : α → β) : GoSlice β :=
  some (mapGo transform source.elems)

/-- Go `FilterMap`: keeps the entries on which the filtering function holds, in a fresh non-nil map. -/
def FilterMap {κ ν : Type} (source : GoMap κ ν) (filteringFunc : κ → ν → Bool) : GoMap κ ν :=
  some (source.entries.filter (fun kv => filteringFunc kv.1 kv.2))

/-- Loop body of `FlatMap`: appends the elements of each inner slice in order. -/
def flatMapGo {α : Type} : List (GoSlice α) → List α
  | [] => []
  | item :: rest => item.elems ++ flatMapGo rest

/-- Go `FlatMap`: flattens a slice of slices into a single fresh non-nil slice. -/
def FlatMap {α : Type} (source : GoSlice (GoSlice α)) : GoSlice α :=
  some (flatMapGo source.elems)

/-- Go `CloneMap`: shallow copy of the entries into a fresh non-nil map. -/
def CloneMap {κ ν : Type} (source : GoMap κ ν) : GoMap κ ν :=
  some source.entries

/-- Go `CloneList`: `make([]T, len(source))` followed by `copy` — a fresh non-nil slice with the same elements. -/
def CloneList {α : Type} (source : GoSlice α) : GoSlice α :=
  some source.elems

/-- Loop body of `Distinct`, threading the `seen` set (modelled as the list of already-seen items). -/
def distinctGo {α : Type} [DecidableEq α] : List α → List α → List α
  | _, [] => []
  | seen, item :: rest =>
    if item ∈ seen then distinctGo seen rest
    else item :: distinctGo (item :: seen) rest

/-- Go `Distinct`: first-seen-order unique elements, deduplicated by direct equality. -/
def Distinct {α : Type} [DecidableEq α] (slice : GoSlice α) : GoSlice α :=
  some (distinctGo [] slice.elems)

/-- Loop body of `DistinctFunc`: identical to `Distinct`'s loop, the comparison function is never consulted. -/
def distinctFuncGo {α : Type} [DecidableEq α] (compareFunc : α → α → Bool) :
    List α → List α → List α
  | _, [] => []
  | seen, item :: rest =>
    if item ∈ seen then distinctFuncGo compareFunc seen rest
    else item :: distinctFuncGo compareFunc (item :: seen) rest

/-- Go `DistinctFunc`: takes a custom comparison function but (as written in the source) never uses it. -/
def DistinctFunc {α : Type} [DecidableEq α] (slice : GoSlice α) (compareFunc : α → α → Bool) :
    GoSlice α :=
  some (distinctFuncGo compareFunc [] slice.elems)

/-- Loop body of `ForEachWithError`: run the action on each item in order, returning at the first non-nil error; the action's side effects are the explicit state `σ`. -/
def forEachGo {α σ : Type} (action : σ → α → σ × Option String) :
    σ → List α → σ × Option String
  | s, [] => (s, none)
  | s, item :: rest =>
    match action s item with
    | (s', some e) => (s', some e)
    | (s', none) => forEachGo action s' rest

/-- Go `ForEachWithError`: executes the action for each item, halting at and returning the first failure. -/
def ForEachWithError {α σ : Type} (source : GoSlice α) (action : σ → α → σ × Option String)
    (s0 : σ) : σ × Option String :=
  forEachGo action s0 source.elems

/-- Error message built by `MapReturnWithError` at index `idx`:
`errors.Wrap(err, fmt.Sprintf("error mapping at index:'%v', error", idx))`. -/
def wrapErrMsg (idx : Nat) (cause : String) : String :=
  "error mapping at index:'" ++ toString idx ++ "', error: " ++ cause

/-- Loop body of `MapReturnWithError`, threading the running index `idx`:
on the first failing element it returns `(nil, wrapped error)`, otherwise
it accumulates the transformed elements. -/
def mapRetGo {α β : Type} (mappingFunc : α → β × Option String) :
    Nat → List α → GoSlice β × Option String
  | _, [] => (some [], none)
  | idx, item :: rest =>
    match mappingFunc item with
    | (_, some e) => (none, some (wrapErrMsg idx e))
    | (res, none) =>
      match mapRetGo mappingFunc (idx + 1) rest with
      | (none, err) => (none, err)
      | (some tail, err) => (some (res :: tail), err)

/-- Go `MapReturnWithError`: maps a fallible transformation over the slice;
on the first failure it returns the nil slice and an index-wrapped error. -/
def MapReturnWithError {α β : Type} (source : GoSlice α)
    (mappingFunc : α → β × Option String) : GoSlice β × Option String :=
  mapRetGo mappingFunc 0 source.elems

/-- Loop body of `Filter`. -/
def filterGo {α : Type} (filterFunc : α → Bool) : List α → List α
  | [] => []
  | item :: rest =>
    if filterFunc item then item :: filterGo filterFunc rest
    else filterGo filterFunc rest

/-- Go `Filter`: keeps the elements satisfying the predicate, in order, in a fresh non-nil slice. -/
def Filter {α : Type} (source : GoSlice α) (filterFunc : α → Bool) : GoSlice α :=
  some (filterGo filterFunc source.elems)

/-- Go `Max`: greatest element under the natural order and a found-flag;
`(default, false)` on an empty slice (the zero value of `T`). -/
def Max {α : Type} [LinearOrder α] [Inhabited α] (slice : GoSlice α) : α × Bool :=
  match slice.elems with
  | [] => (default, false)
  | x :: rest => (rest.foldl (fun m v => if v > m then v else m) x, true)

/-- Go `Min`: least element under the natural order and a found-flag;
`(default, false)` on an empty slice. -/
def Min {α : Type} [LinearOrder α] [Inhabited α] (slice : GoSlice α) : α × Bool :=
  match slice.elems with
  | [] => (default, false)
  | x :: rest => (rest.foldl (fun m v => if v < m then v else m) x, true)

/-- Loop of `MaxBy`, carrying the current best element and its cached getter value;
only a strictly greater value replaces the current best. -/
def maxByGo {α ρ : Type} [LinearOrder ρ] (getter : α → ρ) : α → ρ → List α → α
  | cur, _, [] => cur
  | cur, curVal, v :: rest =>
    if getter v > curVal then maxByGo getter v (getter v) rest
    else maxByGo getter cur curVal rest

/-- Go `MaxBy`: first element whose getter value is maximal, with a found-flag. -/
def MaxBy {α ρ : Type} [LinearOrder ρ] [Inhabited α] (slice : GoSlice α) (getter : α → ρ) :
    α × Bool :=
  match slice.elems with
  | [] => (default, false)
  | x :: rest => (maxByGo getter x (getter x) rest, true)

/-- Loop of `MinBy`; only a strictly smaller value replaces the current best. -/
def minByGo {α ρ : Type} [LinearOrder ρ] (getter : α → ρ) : α → ρ → List α → α
  | cur, _, [] => cur
  | cur, curVal, v :: rest =>
    if getter v < curVal then minByGo getter v (getter v) rest
    else minByGo getter cur curVal rest

/-- Go `MinBy`: first element whose getter value is minimal, with a found-flag. -/
def MinBy {α ρ : Type} [LinearOrder ρ] [Inhabited α] (slice : GoSlice α) (getter : α → ρ) :
    α × Bool :=
  match slice.elems with
  | [] => (default, false)
  | x :: rest => (minByGo getter x (getter x) rest, true)

/-- Loop body of `Partition`, building the two buckets. -/
def partitionGo {α : Type} (predicate : α → Bool) : List α → List α × List α
  | [] => ([], [])
  | v :: rest =>
    match partitionGo predicate rest with
    | (t, f) => if predicate v then (v :: t, f) else (t, v :: f)

/-- Go `Partition`: splits a slice into the satisfying and non-satisfying elements,
both fresh non-nil slices. -/
def Partition {α : Type} (slice : GoSlice α) (predicate : α → Bool) :
    GoSlice α × GoSlice α :=
  match partitionGo predicate slice.elems with
  | (t, f) => (some t, some f)

/-- Go `Count`: counts the elements satisfying the predicate, with a running counter. -/
def Count {α : Type} (slice : GoSlice α) (predicate : α → Bool) : Nat :=
  slice.elems.foldl (fun count v => if predicate v then count + 1 else count) 0

/-- Go `Compose`: applies `g` first and then `f`. -/
def Compose {α β γ : Type} (f : β → γ) (g : α → β) : α → γ :=
  fun x => f (g x)

/-- Go `Pipe`: applies `g` first and then `f`. -/
def Pipe {α β γ : Type} (g : α → β) (f : β → γ) : α → γ :=
  fun x => f (g x)

/-! Basic characterizations of the loop bodies. -/

theorem mapGo_eq_map {α β : Type} (f : α → β) (l : List α) : mapGo f l = l.map f := by
  induction l with
  | nil => rfl
  | cons x xs ih => simp [mapGo, ih]

theorem filterGo_eq_filter {α : Type} (p : α → Bool) (l : List α) :
    filterGo p l = l.filter p := by
  induction l with
  | nil => rfl
  | cons x xs ih =>
    by_cases h : p x <;> simp [filterGo, List.filter, h, ih]

theorem partitionGo_eq_filters {α : Type} (p : α → Bool) (l : List α) :
    partitionGo p l = (l.filter p, l.filter (fun x => !p x)) := by
  induction l with
  | nil => rfl
  | cons x xs ih =>
    by_cases h : p x <;> simp [partitionGo, List.filter, h, ih]

theorem count_foldl_eq {α : Type} (p : α → Bool) (l : List α) (n : Nat) :
    l.foldl (fun count v => if p v then count + 1 else count) n
      = n + (l.filter p).length := by
  induction l generalizing n with
  | nil => simp
  | cons x xs ih =>
    by_cases h : p x
    · simp [List.filter, h, ih]
      omega
    · simp [List.filter, h, ih]

theorem distinctFuncGo_eq_distinctGo {α : Type} [DecidableEq α] (cmp : α → α → Bool)
    (seen l : List α) : distinctFuncGo cmp seen l = distinctGo seen l := by
  induction l generalizing seen with
  | nil => rfl
  | cons x xs ih =>
    by_cases h : x ∈ seen <;> simp [distinctFuncGo, distinctGo, h, ih]

/-! Claim theorems. -/

/-- C5: for every sequence `s` and transform `f`, `Map(s, f)` has the same length
as `s` and its element at every index `i` equals `f(s[i])`, preserving order. -/
theorem map_length_and_elements {α β : Type} (s : GoSlice α) (f : α → β) :
    (Map s f).elems.length = s.elems.length ∧
      ∀ i : Nat, (Map s f).elems[i]? = Option.map f s.elems[i]? := by
  constructor
  · simp [Map, GoSlice.elems, mapGo_eq_map]
  · intro i
    simp [Map, GoSlice.elems, mapGo_eq_map, List.getElem?_map]

/-- C9: for all compatible `g`, `f` and every input `x`, `Pipe(g, f)` produces the
same result as `Compose(f, g)`: both evaluate to `f(g(x))`. -/
theorem pipe_eq_compose {α β γ : Type} (g : α → β) (f : β → γ) (x : α) :
    Pipe g f x = Compose f g x := rfl

/-- C2: for every slice and caller-supplied equality function, `DistinctFunc`
returns exactly the same result as `Distinct`: the equality function is ignored
and deduplication uses the element type's own equality, keeping first-seen-order
unique elements. -/
theorem distinctFunc_eq_distinct {α : Type} [DecidableEq α] (slice : GoSlice α)
    (compareFunc : α → α → Bool) : DistinctFunc slice compareFunc = Distinct slice := by
  simp [DistinctFunc, Distinct, distinctFuncGo_eq_distinctGo]

/-- C10: for every slice and predicate, `Count(slice, predicate)` equals the
length of `Filter(slice, predicate)`. -/
theorem count_eq_filter_length {α : Type} (slice : GoSlice α) (predicate : α → Bool) :
    Count slice predicate = (Filter slice predicate).elems.length := by
  simp [Count, Filter, GoSlice.elems, filterGo_eq_filter, count_foldl_eq]

/-- C4: `Partition` returns two non-absent sequences — the elements satisfying the
predicate in original order, and the rest in original order — together containing
exactly the elements of the input, each exactly once. -/
theorem partition_spec {α : Type} (slice : GoSlice α) (predicate : α → Bool) :
    ∃ t f : List α,
      Partition slice predicate = (some t, some f) ∧
      t = slice.elems.filter predicate ∧
      f = slice.elems.filter (fun x => !predicate x) ∧
      (t ++ f).Perm slice.elems := by
  refine ⟨slice.elems.filter predicate, slice.elems.filter (fun x => !predicate x), ?_, rfl, rfl,
    List.filter_append_perm predicate slice.elems⟩
  simp [Partition, partitionGo_eq_filters]

theorem foldlMax_mem_le {α : Type} [LinearOrder α] (l : List α) (x : α) :
    List.foldl (fun m v => if v > m then v else m) x l ∈ x :: l ∧
      ∀ y ∈ x :: l, y ≤ List.foldl (fun m v => if v > m then v else m) x l := by
  induction l generalizing x with
  | nil => simp
  | cons v vs ih =>
    rw [List.foldl_cons]
    have hxm : x ≤ (if v > x then v else x) := by
      by_cases h : v > x
      · simp only [if_pos h]; exact le_of_lt h
      · simp [if_neg h]
    have hvm : v ≤ (if v > x then v else x) := by
      by_cases h : v > x
      · simp [if_pos h]
      · simp only [if_neg h]; exact le_of_not_lt h
    obtain ⟨hmem, hle⟩ := ih (if v > x then v else x)
    constructor
    · rcases List.mem_cons.mp hmem with h | h
      · rw [h]
        by_cases hc : v > x <;> simp [hc]
      · simp [h]
    · intro y hy
      rcases List.mem_cons.mp hy with rfl | hy2
      · exact le_trans hxm (hle _ (List.mem_cons_self _ _))
      rcases List.mem_cons.mp hy2 with rfl | hy3
      · exact le_trans hvm (hle _ (List.mem_cons_self _ _))
      · exact hle y (List.mem_cons_of_mem _ hy3)

theorem foldlMin_mem_le {α : Type} [LinearOrder α] (l : List α) (x : α) :
    List.foldl (fun m v => if v < m then v else m) x l ∈ x :: l ∧
      ∀ y ∈ x :: l, List.foldl (fun m v => if v < m then v else m) x l ≤ y := by
  induction l generalizing x with
  | nil => simp
  | cons v vs ih =>
    rw [List.foldl_cons]
    have hxm : (if v < x then v else x) ≤ x := by
      by_cases h : v < x
      · simp only [if_pos h]; exact le_of_lt h
      · simp [if_neg h]
    have hvm : (if v < x then v else x) ≤ v := by
      by_cases h : v < x
      · simp [if_pos h]
      · simp only [if_neg h]; exact le_of_not_lt h
    obtain ⟨hmem, hle⟩ := ih (if v < x then v else x)
    constructor
    · rcases List.mem_cons.mp hmem with h | h
      · rw [h]
        by_cases hc : v < x <;> simp [hc]
      · simp [h]
    · intro y hy
      rcases List.mem_cons.mp hy with rfl | hy2
      · exact le_trans (hle _ (List.mem_cons_self _ _)) hxm
      rcases List.mem_cons.mp hy2 with rfl | hy3
      · exact le_trans (hle _ (List.mem_cons_self _ _)) hvm
      · exact hle y (List.mem_cons_of_mem _ hy3)

/-- C3: `Max` returns the greatest element with found = true on non-empty input
and `(zero value, false)` on empty input; symmetrically `Min` returns the least
element with found = true on non-empty input and `(zero value, false)` on empty
input. The zero value of the element type is modelled by `default`. -/
theorem max_min_spec {α : Type} [LinearOrder α] [Inhabited α] (s : GoSlice α) :
    (Max (α := α) none = (default, false) ∧ Min (α := α) none = (default, false) ∧
      Max (α := α) (some []) = (default, false) ∧ Min (α := α) (some []) = (default, false)) ∧
    (s.elems ≠ [] →
      ((Max s).2 = true ∧ (Max s).1 ∈ s.elems ∧ ∀ y ∈ s.elems, y ≤ (Max s).1) ∧
      ((Min s).2 = true ∧ (Min s).1 ∈ s.elems ∧ ∀ y ∈ s.elems, (Min s).1 ≤ y)) := by
  refine ⟨⟨rfl, rfl, rfl, rfl⟩, ?_⟩
  intro h
  cases hne : s.elems with
  | nil => exact absurd hne h
  | cons x rest =>
    have hMx : Max s = (rest.foldl (fun m v => if v > m then v else m) x, true) := by
      simp [Max, hne]
    have hMn : Min s = (rest.foldl (fun m v => if v < m then v else m) x, true) := by
      simp [Min, hne]
    rw [hMx, hMn]
    exact ⟨⟨rfl, (foldlMax_mem_le rest x).1, (foldlMax_mem_le rest x).2⟩,
      ⟨rfl, (foldlMin_mem_le rest x).1, (foldlMin_mem_le rest x).2⟩⟩

theorem max_min_spec_witness :
    (Max (some [1, 2, 3, 4, 5] : GoSlice Int)).2 = true ∧
      (Min (some [1, 2, 3, 4, 5] : GoSlice Int)).2 = true := by
  have h := (max_min_spec (α := Int) (some [1, 2, 3, 4, 5])).2 (by decide)
  exact ⟨h.1.1, h.2.1⟩

/-- C6: every function returning a newly-constructed sequence or mapping
(`Map`, `Filter`, `FlatMap`, `FilterMap`, `CloneMap`, `CloneList`, `Distinct`,
`Partition`, `MapReturnWithError` on success) returns an empty non-nil container,
never a nil one, when its input container is empty or nil (`elems`/`entries` empty
covers both shapes). -/
theorem empty_input_nonnil {α β κ ν : Type} [DecidableEq α]
    (s : GoSlice α) (ss : GoSlice (GoSlice α)) (m : GoMap κ ν)
    (f : α → β) (p : α → Bool) (g : κ → ν → Bool) (mf : α → β × Option String)
    (hs : s.elems = []) (hss : ss.elems = []) (hm : m.entries = []) :
    Map s f = some [] ∧ Filter s p = some [] ∧ FlatMap ss = some [] ∧
    FilterMap m g = some [] ∧ CloneMap m = some [] ∧ CloneList s = some [] ∧
    Distinct s = some [] ∧ Partition s p = (some [], some []) ∧
    MapReturnWithError s mf = (some [], none) := by
  refine ⟨?_, ?_, ?_, ?_, ?_, ?_, ?_, ?_, ?_⟩ <;>
    simp [Map, Filter, FlatMap, FilterMap, CloneMap, CloneList, Distinct, Partition,
      MapReturnWithError, hs, hss, hm, mapGo, filterGo, flatMapGo, distinctGo,
      partitionGo, mapRetGo]

theorem empty_input_nonnil_witness :
    Map (none : GoSlice Nat) (fun n => n + 1) = some [] ∧
      CloneList (none : GoSlice Nat) = some [] := by
  have h := empty_input_nonnil (β := Nat) (none : GoSlice Nat)
    (none : GoSlice (GoSlice Nat)) (none : GoMap Nat Nat)
    (fun n => n + 1) (fun _ => true) (fun _ _ => true) (fun n => (n, none)) rfl rfl rfl
  exact ⟨h.1, h.2.2.2.2.2.1⟩

theorem mapRetGo_success {α β : Type} (f : α → β × Option String) (l : List α) (idx : Nat)
    (h : ∀ x ∈ l, (f x).2 = none) :
    mapRetGo f idx l = (some (l.map fun x => (f x).1), none) := by
  induction l generalizing idx with
  | nil => rfl
  | cons x xs ih =>
    have hx : (f x).2 = none := h x (by simp)
    rcases hfx : f x with ⟨res, err⟩
    rw [hfx] at hx
    simp only at hx
    subst hx
    have hrest := ih (idx + 1) (fun y hy => h y (by simp [hy]))
    simp [mapRetGo, hfx, hrest]

theorem mapRetGo_first_failure {α β : Type} (f : α → β × Option String)
    (l₁ : List α) (x : α) (l₂ : List α) (idx : Nat) (e : String)
    (h1 : ∀ y ∈ l₁, (f y).2 = none) (hx : (f x).2 = some e) :
    mapRetGo f idx (l₁ ++ x :: l₂) = (none, some (wrapErrMsg (idx + l₁.length) e)) := by
  induction l₁ generalizing idx with
  | nil =>
    rcases hfx : f x with ⟨res, err⟩
    rw [hfx] at hx
    simp only at hx
    subst hx
    simp [mapRetGo, hfx]
  | cons y ys ih =>
    have hy : (f y).2 = none := h1 y (by simp)
    rcases hfy : f y with ⟨res, err⟩
    rw [hfy] at hy
    simp only at hy
    subst hy
    have hrest := ih (idx + 1) (fun z hz => h1 z (List.mem_cons_of_mem _ hz))
    have harg : idx + 1 + ys.length = idx + (y :: ys).length := by
      simp only [List.length_cons]
      omega
    rw [harg] at hrest
    simp [mapRetGo, hfy, hrest]

/-- C1: `MapReturnWithError` returns, when the transform fails on some element,
the nil slice (not a partial result) together with an error whose message is
exactly `error mapping at index:'<i>', error: <cause>` for the first failing
zero-based index `<i>`; elements after the first failing one are not transformed
(the result does not depend on the transform's behavior beyond that element);
when no element fails it returns the complete transformed sequence and no error. -/
theorem mapReturnWithError_spec {α β : Type} (s : GoSlice α) (f : α → β × Option String) :
    ((∀ x ∈ s.elems, (f x).2 = none) →
      MapReturnWithError s f = (some (s.elems.map fun x => (f x).1), none)) ∧
    (∀ (l₁ : List α) (x : α) (l₂ : List α) (e : String),
      s.elems = l₁ ++ x :: l₂ →
      (∀ y ∈ l₁, (f y).2 = none) →
      (f x).2 = some e →
      MapReturnWithError s f
          = (none, some ("error mapping at index:'" ++ toString l₁.length ++ "', error: " ++ e)) ∧
        ∀ f' : α → β × Option String, (∀ y ∈ l₁, f' y = f y) → f' x = f x →
          MapReturnWithError s f' = MapReturnWithError s f) := by
  constructor
  · intro h
    simp only [MapReturnWithError]
    exact mapRetGo_success f s.elems 0 h
  · intro l₁ x l₂ e hsplit h1 hx
    have hfail : MapReturnWithError s f
        = (none, some ("error mapping at index:'" ++ toString l₁.length ++ "', error: " ++ e)) := by
      have := mapRetGo_first_failure f l₁ x l₂ 0 e h1 hx
      simp only [MapReturnWithError, hsplit, this, wrapErrMsg, Nat.zero_add]
    refine ⟨hfail, ?_⟩
    intro f' hagree hagreex
    have h1' : ∀ y ∈ l₁, (f' y).2 = none := fun y hy => by rw [hagree y hy]; exact h1 y hy
    have hx' : (f' x).2 = some e := by rw [hagreex]; exact hx
    have hfail' : MapReturnWithError s f'
        = (none, some ("error mapping at index:'" ++ toString l₁.length ++ "', error: " ++ e)) := by
      have := mapRetGo_first_failure f' l₁ x l₂ 0 e h1' hx'
      simp only [MapReturnWithError, hsplit, this, wrapErrMsg, Nat.zero_add]
    rw [hfail, hfail']

theorem mapReturnWithError_spec_witness :
    MapReturnWithError (some [1, 2, 3, 4, 5])
        (fun n : Nat => (n * 2, if n = 3 then some "fake error for 3" else none))
      = (none, some "error mapping at index:'2', error: fake error for 3") := by
  have h := (mapReturnWithError_spec (some [1, 2, 3, 4, 5])
      (fun n : Nat => (n * 2, if n = 3 then some "fake error for 3" else none))).2
    [1, 2] 3 [4, 5] "fake error for 3" rfl (by decide) (by decide)
  rw [h.1]
  rfl

/-- Folding the action's state through a list, ignoring returned errors: the
states a Go closure would have seen while the loop keeps succeeding. -/
def stateFold {α σ : Type} (action : σ → α → σ × Option String) (s : σ) (l : List α) : σ :=
  l.foldl (fun s x => (action s x).1) s

/-- True when running the action over the list from state `s` hits no error. -/
def cleanRun {α σ : Type} (action : σ → α → σ × Option String) : σ → List α → Bool
  | _, [] => true
  | s, x :: xs =>
    match action s x with
    | (s', none) => cleanRun action s' xs
    | (_, some _) => false

theorem forEachGo_success {α σ : Type} (action : σ → α → σ × Option String) (l : List α)
    (s : σ) (h : cleanRun action s l = true) :
    forEachGo action s l = (stateFold action s l, none) := by
  induction l generalizing s with
  | nil => rfl
  | cons x xs ih =>
    rcases hax : action s x with ⟨s', err⟩
    cases err with
    | none =>
      have h' : cleanRun action s' xs = true := by
        rw [cleanRun, hax] at h
        exact h
      simp only [forEachGo, hax]
      rw [ih s' h']
      simp [stateFold, hax]
    | some e =>
      rw [cleanRun, hax] at h
      simp at h

theorem forEachGo_first_failure {α σ : Type} (action : σ → α → σ × Option String)
    (l₁ : List α) (x : α) (l₂ : List α) (s : σ) (e : String)
    (hclean : cleanRun action s l₁ = true)
    (hx : (action (stateFold action s l₁) x).2 = some e) :
    forEachGo action s (l₁ ++ x :: l₂) = ((action (stateFold action s l₁) x).1, some e) := by
  induction l₁ generalizing s with
  | nil =>
    rcases hax : action s x with ⟨s', err⟩
    rw [stateFold] at hx
    simp only [List.foldl_nil] at hx
    rw [hax] at hx
    simp only at hx
    subst hx
    simp [forEachGo, stateFold, hax]
  | cons y ys ih =>
    rcases hay : action s y with ⟨s', err⟩
    rw [cleanRun, hay] at hclean
    cases err with
    | some e' => simp at hclean
    | none =>
      have hfold : stateFold action s (y :: ys) = stateFold action s' ys := by
        simp [stateFold, hay]
      rw [hfold] at hx
      have := ih s' hclean hx
      simp [forEachGo, hay, this, hfold]

/-- C7: `ForEachWithError` invokes the action on elements in order (modelled by
threading the action's state), halts at the first element whose action fails and
returns that failure unchanged — the outcome equals the run over just the prefix
ending at the failing element, so subsequent elements are not visited — and
returns no error when no action fails. -/
theorem forEachWithError_spec {α σ : Type} (s : GoSlice α)
    (action : σ → α → σ × Option String) (s0 : σ) :
    (cleanRun action s0 s.elems = true →
      ForEachWithError s action s0 = (stateFold action s0 s.elems, none)) ∧
    (∀ (l₁ : List α) (x : α) (l₂ : List α) (e : String),
      s.elems = l₁ ++ x :: l₂ →
      cleanRun action s0 l₁ = true →
      (action (stateFold action s0 l₁) x).2 = some e →
      ForEachWithError s action s0 = ((action (stateFold action s0 l₁) x).1, some e) ∧
      ForEachWithError s action s0 = ForEachWithError (some (l₁ ++ [x])) action s0) := by
  constructor
  · intro h
    exact forEachGo_success action s.elems s0 h
  · intro l₁ x l₂ e hsplit hclean hx
    have hall : forEachGo action s0 (l₁ ++ x :: l₂)
        = ((action (stateFold action s0 l₁) x).1, some e) :=
      forEachGo_first_failure action l₁ x l₂ s0 e hclean hx
    have hpre : forEachGo action s0 (l₁ ++ [x])
        = ((action (stateFold action s0 l₁) x).1, some e) :=
      forEachGo_first_failure action l₁ x [] s0 e hclean hx
    constructor
    · simp only [ForEachWithError, hsplit]
      exact hall
    · have hpe : GoSlice.elems (some (l₁ ++ [x])) = l₁ ++ [x] := rfl
      simp only [ForEachWithError, hsplit, hpe]
      rw [hall, hpre]

theorem forEachWithError_spec_witness :
    ForEachWithError (some [1, 2, 3, 4, 5])
        (fun (s : List Nat) (x : Nat) => (s ++ [x], if x = 3 then some "boom" else none)) []
      = ([1, 2, 3], some "boom") := by
  have h := (forEachWithError_spec (some [1, 2, 3, 4, 5])
      (fun (s : List Nat) (x : Nat) => (s ++ [x], if x = 3 then some "boom" else none)) []).2
    [1, 2] 3 [4, 5] "boom" rfl (by decide) (by decide)
  rw [h.1]
  decide

theorem maxByGo_first_argmax {α ρ : Type} [LinearOrder ρ] (getter : α → ρ) (l : List α)
    (cur : α) :
    ∃ l₁ l₂ : List α,
      cur :: l = l₁ ++ maxByGo getter cur (getter cur) l :: l₂ ∧
      (∀ y ∈ l₁, getter y < getter (maxByGo getter cur (getter cur) l)) ∧
      (∀ y ∈ l₂, getter y ≤ getter (maxByGo getter cur (getter cur) l)) := by
  induction l generalizing cur with
  | nil => exact ⟨[], [], rfl, by simp, by simp⟩
  | cons v vs ih =>
    by_cases h : getter v > getter cur
    · have hstep : maxByGo getter cur (getter cur) (v :: vs) = maxByGo getter v (getter v) vs := by
        simp [maxByGo, h]
      rw [hstep]
      obtain ⟨l₁, l₂, heq, hlt, hle⟩ := ih v
      refine ⟨cur :: l₁, l₂, ?_, ?_, hle⟩
      · rw [List.cons_append]
        exact congrArg (List.cons cur) heq
      · intro y hy
        rcases List.mem_cons.mp hy with rfl | hy2
        · cases l₁ with
          | nil =>
            injection heq with h1 _
            rw [← h1]
            exact h
          | cons a l₁x =>
            injection heq with h1 _
            have hv_lt := hlt a (List.mem_cons_self _ _)
            rw [← h1] at hv_lt
            exact lt_trans h hv_lt
        · exact hlt y hy2
    · have h' : getter v ≤ getter cur := le_of_not_lt h
      have hstep : maxByGo getter cur (getter cur) (v :: vs)
          = maxByGo getter cur (getter cur) vs := by
        simp [maxByGo, h]
      rw [hstep]
      obtain ⟨l₁, l₂, heq, hlt, hle⟩ := ih cur
      cases l₁ with
      | nil =>
        injection heq with h1 h2
        refine ⟨[], v :: l₂, ?_, by simp, ?_⟩
        · rw [List.nil_append, ← h1, ← h2]
        · intro y hy
          rcases List.mem_cons.mp hy with rfl | hy2
          · rw [← h1]
            exact h'
          · exact hle y hy2
      | cons a l₁x =>
        injection heq with h1 h2
        refine ⟨cur :: v :: l₁x, l₂, ?_, ?_, hle⟩
        · rw [List.cons_append, List.cons_append]
          exact congrArg (List.cons cur) (congrArg (List.cons v) h2)
        · intro y hy
          rcases List.mem_cons.mp hy with rfl | hy2
          · exact lt_of_le_of_lt (le_of_eq (congrArg getter h1))
              (hlt a (List.mem_cons_self _ _))
          rcases List.mem_cons.mp hy2 with rfl | hy3
          · have hc := hlt a (List.mem_cons_self _ _)
            rw [← h1] at hc
            exact lt_of_le_of_lt h' hc
          · exact hlt y (List.mem_cons_of_mem _ hy3)

theorem minByGo_first_argmin {α ρ : Type} [LinearOrder ρ] (getter : α → ρ) (l : List α)
    (cur : α) :
    ∃ l₁ l₂ : List α,
      cur :: l = l₁ ++ minByGo getter cur (getter cur) l :: l₂ ∧
      (∀ y ∈ l₁, getter (minByGo getter cur (getter cur) l) < getter y) ∧
      (∀ y ∈ l₂, getter (minByGo getter cur (getter cur) l) ≤ getter y) := by
  induction l generalizing cur with
  | nil => exact ⟨[], [], rfl, by simp, by simp⟩
  | cons v vs ih =>
    by_cases h : getter v < getter cur
    · have hstep : minByGo getter cur (getter cur) (v :: vs) = minByGo getter v (getter v) vs := by
        simp [minByGo, h]
      rw [hstep]
      obtain ⟨l₁, l₂, heq, hlt, hle⟩ := ih v
      refine ⟨cur :: l₁, l₂, ?_, ?_, hle⟩
      · rw [List.cons_append]
        exact congrArg (List.cons cur) heq
      · intro y hy
        rcases List.mem_cons.mp hy with rfl | hy2
        · cases l₁ with
          | nil =>
            injection heq with h1 _
            rw [← h1]
            exact h
          | cons a l₁x =>
            injection heq with h1 _
            have hv_lt := hlt a (List.mem_cons_self _ _)
            rw [← h1] at hv_lt
            exact lt_trans hv_lt h
        · exact hlt y hy2
    · have h' : getter cur ≤ getter v := le_of_not_lt h
      have hstep : minByGo getter cur (getter cur) (v :: vs)
          = minByGo getter cur (getter cur) vs := by
        simp [minByGo, h]
      rw [hstep]
      obtain ⟨l₁, l₂, heq, hlt, hle⟩ := ih cur
      cases l₁ with
      | nil =>
        injection heq with h1 h2
        refine ⟨[], v :: l₂, ?_, by simp, ?_⟩
        · rw [List.nil_append, ← h1, ← h2]
        · intro y hy
          rcases List.mem_cons.mp hy with rfl | hy2
          · rw [← h1]
            exact h'
          · exact hle y hy2
      | cons a l₁x =>
        injection heq with h1 h2
        refine ⟨cur :: v :: l₁x, l₂, ?_, ?_, hle⟩
        · rw [List.cons_append, List.cons_append]
          exact congrArg (List.cons cur) (congrArg (List.cons v) h2)
        · intro y hy
          rcases List.mem_cons.mp hy with rfl | hy2
          · exact lt_of_lt_of_le (hlt a (List.mem_cons_self _ _))
              (le_of_eq (congrArg getter h1).symm)
          rcases List.mem_cons.mp hy2 with rfl | hy3
          · have hc := hlt a (List.mem_cons_self _ _)
            rw [← h1] at hc
            exact lt_of_lt_of_le hc h'
          · exact hlt y (List.mem_cons_of_mem _ hy3)

/-- C8: on a non-empty slice, `MaxBy` (resp. `MinBy`) returns with found = true the
first element whose key achieves the maximum (resp. minimum) key value — every
earlier element has a strictly worse key, and no later element has a strictly
better one, so a later equal-or-worse key never replaces the earlier winner; on an
empty (or nil) slice both return the element type's zero value with found = false. -/
theorem maxBy_minBy_spec {α ρ : Type} [LinearOrder ρ] [Inhabited α]
    (s : GoSlice α) (getter : α → ρ) :
    (MaxBy (α := α) none getter = (default, false) ∧
      MaxBy (some []) getter = (default, false) ∧
      MinBy (α := α) none getter = (default, false) ∧
      MinBy (some []) getter = (default, false)) ∧
    (s.elems ≠ [] →
      ((MaxBy s getter).2 = true ∧
        ∃ l₁ l₂ : List α, s.elems = l₁ ++ (MaxBy s getter).1 :: l₂ ∧
          (∀ y ∈ l₁, getter y < getter (MaxBy s getter).1) ∧
          (∀ y ∈ l₂, getter y ≤ getter (MaxBy s getter).1)) ∧
      ((MinBy s getter).2 = true ∧
        ∃ l₁ l₂ : List α, s.elems = l₁ ++ (MinBy s getter).1 :: l₂ ∧
          (∀ y ∈ l₁, getter (MinBy s getter).1 < getter y) ∧
          (∀ y ∈ l₂, getter (MinBy s getter).1 ≤ getter y))) := by
  refine ⟨⟨rfl, rfl, rfl, rfl⟩, ?_⟩
  intro h
  cases hne : s.elems with
  | nil => exact absurd hne h
  | cons x rest =>
    have hMx : MaxBy s getter = (maxByGo getter x (getter x) rest, true) := by
      simp [MaxBy, hne]
    have hMn : MinBy s getter = (minByGo getter x (getter x) rest, true) := by
      simp [MinBy, hne]
    rw [hMx, hMn]
    obtain ⟨l₁, l₂, heq, hlt, hle⟩ := maxByGo_first_argmax getter rest x
    obtain ⟨m₁, m₂, heq', hlt', hle'⟩ := minByGo_first_argmin getter rest x
    exact ⟨⟨rfl, l₁, l₂, heq, hlt, hle⟩, ⟨rfl, m₁, m₂, heq', hlt', hle'⟩⟩

theorem maxBy_minBy_spec_witness :
    (MaxBy (some [(1, 10), (2, 30), (3, 30), (4, 20)] : GoSlice (Nat × Nat)) Prod.snd).2
        = true ∧
      (MinBy (some [(1, 10), (2, 30), (3, 30), (4, 20)] : GoSlice (Nat × Nat)) Prod.snd).2
        = true := by
  have h := (maxBy_minBy_spec
      (some [(1, 10), (2, 30), (3, 30), (4, 20)] : GoSlice (Nat × Nat)) Prod.snd).2
    (by decide)
  exact ⟨h.1.1, h.2.1⟩

end Collection
